import Mathlib

/-!
# S_message::toString — the payload renderer

Embedding of `src/S_message.cpp`:

```
char S_message::buffer[32];

char* S_message::toString(void)
{
  snprintf(buffer,sizeof(buffer),"%s",payload);
  return buffer;
}
```

The machine is a flat byte-addressed memory.  The static Display Buffer
`S_message::buffer` lives at a fixed address, a message's `payload` at the
address passed as `msg`.  `snprintf` is the C library routine; it is modelled
here for the one format the source uses, `"%s"`: the argument is scanned for
its terminating zero byte (the call's return value is the length of the whole
argument, so the scan always runs up to the terminator), then at most
`n - 1` of the scanned bytes and a zero byte are stored at the destination.
Every address the scan reads and every address the copy stores to is logged.
A read or a store outside the memory is a fault: the call does not return.
-/

namespace SMessage

/-- One `char`. -/
abbrev Byte := Fin 256

/-- Outcome of a call: it either returns, leaving a memory, a return value and
the logs of the addresses it read and wrote, or it faults on a read or a write
outside the memory. -/
inductive Outcome where
  | done (mem : List Byte) (ret : Nat) (reads : List Nat) (writes : List Nat)
  | fault (reads : List Nat)
  deriving DecidableEq

/-- The addresses a call read, whether it returned or faulted. -/
def Outcome.reads : Outcome → List Nat
  | Outcome.done _ _ reads _ => reads
  | Outcome.fault reads => reads

/-- The machine state: the memory and the address of the static
`S_message::buffer`. -/
structure Machine where
  mem : List Byte
  buffer : Nat
  deriving DecidableEq

/-- `sizeof(buffer)` for `char S_message::buffer[32]`. -/
def bufferSize : Nat := 32

/-- Modelled from the spec: the declaration of `payload` (in `S_message.h`) is
missing; the spec gives the Payload a fixed capacity of 32 bytes, the same as
the Display Buffer. -/
def payloadCapacity : Nat := 32

/-- The scan for the terminating zero byte of the string at address `a`; the
first argument is the memory from address `a` on.  Returns the addresses read,
in order, and the number of non-zero bytes before the terminator; `none` when
the scan runs off the memory without meeting a zero byte (the last address
read is then the first one outside the memory). -/
def scanFrom : List Byte → Nat → List Nat × Option Nat
  | [], a => ([a], none)
  | b :: rest, a =>
    if b = 0 then ([a], some 0)
    else ((a :: (scanFrom rest (a + 1)).1), (scanFrom rest (a + 1)).2.map (· + 1))

/-- Store one byte; `none` when the address is outside the memory. -/
def store (mem : List Byte) (a : Nat) (v : Byte) : Option (List Byte) :=
  if a < mem.length then some (mem.set a v) else none

/-- Store the bytes `bs` at consecutive addresses from `dst`. -/
def storeBytes (mem : List Byte) (dst : Nat) : List Byte → Option (List Byte)
  | [] => some mem
  | b :: bs => (store mem dst b).bind (fun m => storeBytes m (dst + 1) bs)

/-- The library call `snprintf(dst, n, "%s", src)`: scan the argument at `src`
up to its terminator, then store its first `min len (n - 1)` bytes followed by
a zero byte at `dst` (nothing when `n = 0`).  The return value is the length
of the whole argument.  The bytes stored are the ones the scan read; C leaves
the call undefined when the copied bytes and the destination overlap, which
`WF` below excludes for `toString`. -/
def snprintf (mem : List Byte) (dst n src : Nat) : Outcome :=
  match scanFrom (mem.drop src) src with
  | (reads, none) => Outcome.fault reads
  | (reads, some len) =>
    if n = 0 then Outcome.done mem len reads []
    else
      match storeBytes mem dst ((mem.drop src).take (min len (n - 1)) ++ [0]) with
      | none => Outcome.fault reads
      | some mem' => Outcome.done mem' len reads (List.range' dst (min len (n - 1) + 1))

/-- The method `S_message::toString` of the message whose `payload` is at
address `msg`: `snprintf(buffer,sizeof(buffer),"%s",payload); return buffer;`.
The value `snprintf` returns is dropped; the call returns the address of the
Display Buffer. -/
def toString (m : Machine) (msg : Nat) : Outcome :=
  match snprintf m.mem m.buffer bufferSize msg with
  | Outcome.done mem' _ reads writes => Outcome.done mem' m.buffer reads writes
  | Outcome.fault reads => Outcome.fault reads

/-- The payload and the Display Buffer are two distinct objects inside the
memory. -/
def WF (m : Machine) (msg : Nat) : Prop :=
  m.buffer + bufferSize ≤ m.mem.length ∧ msg + payloadCapacity ≤ m.mem.length ∧
    (msg + payloadCapacity ≤ m.buffer ∨ m.buffer + bufferSize ≤ msg)

instance (m : Machine) (msg : Nat) : Decidable (WF m msg) := by
  unfold WF; infer_instance

/-- The `cap` bytes of the object at address `a`. -/
def bytesAt (mem : List Byte) (a cap : Nat) : List Byte := (mem.drop a).take cap

/-- The payload of the message at `msg`. -/
def payloadOf (m : Machine) (msg : Nat) : List Byte := bytesAt m.mem msg payloadCapacity

/-- The content of the Display Buffer in memory `mem`. -/
def bufferOf (m : Machine) (mem : List Byte) : List Byte := bytesAt mem m.buffer bufferSize

/-- The C string a caller reads through the pointer `p`: the bytes from `p` up
to, not including, the first zero byte; `none` when there is no zero byte. -/
def cstrAt (mem : List Byte) (p : Nat) : Option (List Byte) :=
  (scanFrom (mem.drop p) p).2.map (fun n => (mem.drop p).take n)

/-- The longest zero-free prefix of a byte sequence. -/
def nullFreePrefix (bs : List Byte) : List Byte := bs.takeWhile (· ≠ 0)

/-- A zero byte is readable at or after address `a`. -/
def Terminated (mem : List Byte) (a : Nat) : Prop := (0 : Byte) ∈ mem.drop a

instance (mem : List Byte) (a : Nat) : Decidable (Terminated mem a) := by
  unfold Terminated; infer_instance

/-- The string a payload renders to: its longest zero-free prefix, cut to at
most `bufferSize - 1` bytes. -/
def rendered (pay : List Byte) : List Byte := (nullFreePrefix pay).take (bufferSize - 1)

/-- The byte sequence `bs` holds a null-terminated string of length `n`: its
byte `n` is zero and no byte before it is. -/
def IsCStr (bs : List Byte) (n : Nat) : Prop :=
  bs[n]? = some 0 ∧ ∀ i, i < n → bs[i]? ≠ some 0

instance (bs : List Byte) (n : Nat) : Decidable (IsCStr bs n) := by
  unfold IsCStr; infer_instance

/-- Memory with the Display Buffer (holding `buf`) at address 0, the payload
`pay` right behind it at address 32, and `rest` after the payload. -/
def layout (buf pay rest : List Byte) : Machine := ⟨buf ++ pay ++ rest, 0⟩

/-- The payload with the bytes a, b, 0, c, d: a zero byte at index 2, and 27
further bytes that fill the 32-byte capacity. -/
def payloadAb : List Byte := [97, 98, 0, 99, 100] ++ List.replicate 27 7

/-- The exact-fit payload: 31 non-zero bytes and one zero byte. -/
def payloadExactFit : List Byte := List.replicate 31 65 ++ [0]

/-- The overflow payload: 32 non-zero bytes, no terminator. -/
def payloadFull : List Byte := List.replicate 32 65

/-! ## The scan and the store in closed form -/

theorem split_at (mem : List Byte) (dst : Nat) (h : dst < mem.length) :
    ∃ A c C, mem = A ++ c :: C ∧ A.length = dst :=
  ⟨mem.take dst, mem[dst], mem.drop (dst + 1), by simp, by simp; omega⟩

theorem storeBytes_eq (bs : List Byte) (mem : List Byte) (dst : Nat)
    (h : dst + bs.length ≤ mem.length) :
    storeBytes mem dst bs = some (mem.take dst ++ bs ++ mem.drop (dst + bs.length)) := by
  induction bs generalizing mem dst with
  | nil => simp [storeBytes]
  | cons b bs ih =>
    simp only [List.length_cons] at h
    have hlt : dst < mem.length := by omega
    simp only [storeBytes, store, hlt, if_true, Option.some_bind]
    rw [ih _ _ (by simp; omega)]
    obtain ⟨A, c, C, rfl, rfl⟩ := split_at mem dst hlt
    congr 1
    have e1 : A.length + 1 + bs.length = A.length + (1 + bs.length) := by omega
    have e2 : A.length + (bs.length + 1) = A.length + (1 + bs.length) := by omega
    simp [List.take_append, e1, e2, List.drop_append]
    rw [Nat.add_comm 1]
    simp

theorem nullFreePrefix_nil : nullFreePrefix [] = [] := rfl

theorem nullFreePrefix_cons_zero (l : List Byte) : nullFreePrefix (0 :: l) = [] := by
  simp [nullFreePrefix]

theorem nullFreePrefix_cons_ne (b : Byte) (l : List Byte) (hb : b ≠ 0) :
    nullFreePrefix (b :: l) = b :: nullFreePrefix l := by
  simp [nullFreePrefix, List.takeWhile, hb]

theorem take_nullFreePrefix_length (l : List Byte) (k : Nat) :
    l.take (min (nullFreePrefix l).length k) = (nullFreePrefix l).take k := by
  induction l generalizing k with
  | nil => simp [nullFreePrefix_nil]
  | cons b rest ih =>
    by_cases hb : b = 0
    · simp [hb, nullFreePrefix_cons_zero]
    · cases k with
      | zero => simp
      | succ k =>
        simp [nullFreePrefix_cons_ne b rest hb, Nat.succ_min_succ, ih k]

theorem nullFreePrefix_take (l : List Byte) (n k : Nat) (h : k ≤ n) :
    (nullFreePrefix (l.take n)).take k = (nullFreePrefix l).take k := by
  induction l generalizing n k with
  | nil => simp [nullFreePrefix_nil]
  | cons b rest ih =>
    cases k with
    | zero => simp
    | succ k =>
      cases n with
      | zero => omega
      | succ n =>
        by_cases hb : b = 0
        · simp [hb, nullFreePrefix_cons_zero]
        · simp [nullFreePrefix_cons_ne b _ hb, ih n k (by omega)]

theorem scanFrom_snd (l : List Byte) (a : Nat) :
    (scanFrom l a).2 = if (0 : Byte) ∈ l then some (nullFreePrefix l).length else none := by
  induction l generalizing a with
  | nil => simp [scanFrom]
  | cons b rest ih =>
    by_cases hb : b = 0
    · simp [scanFrom, hb, nullFreePrefix_cons_zero]
    · have hb' : ¬ (0 = b) := fun h => hb h.symm
      simp only [scanFrom, hb, if_false, ih, List.mem_cons, hb', false_or,
        nullFreePrefix_cons_ne b rest hb]
      split <;> simp

theorem scanFrom_fst (l : List Byte) (a : Nat) :
    (scanFrom l a).1 = List.range' a ((nullFreePrefix l).length + 1) := by
  induction l generalizing a with
  | nil => simp [scanFrom, nullFreePrefix_nil]
  | cons b rest ih =>
    by_cases hb : b = 0
    · simp [scanFrom, hb, nullFreePrefix_cons_zero]
    · simp [scanFrom, hb, ih, nullFreePrefix_cons_ne b rest hb, List.range'_succ]

theorem scanFrom_eq (l : List Byte) (a : Nat) :
    scanFrom l a = (List.range' a ((nullFreePrefix l).length + 1),
      if (0 : Byte) ∈ l then some (nullFreePrefix l).length else none) := by
  rw [← scanFrom_snd l a, ← scanFrom_fst l a]

theorem rendered_length_le (pay : List Byte) : (rendered pay).length ≤ 31 := by
  simp [rendered, bufferSize]

theorem rendered_payloadOf (m : Machine) (msg : Nat) :
    rendered (payloadOf m msg) = (nullFreePrefix (m.mem.drop msg)).take 31 := by
  simp only [rendered, payloadOf, bytesAt, payloadCapacity, bufferSize]
  exact nullFreePrefix_take _ 32 31 (by omega)

theorem toString_done (m : Machine) (msg : Nat) (hwf : WF m msg)
    (ht : Terminated m.mem msg) :
    toString m msg =
      Outcome.done
        (m.mem.take m.buffer ++ (rendered (payloadOf m msg) ++ [0]) ++
          m.mem.drop (m.buffer + ((rendered (payloadOf m msg)).length + 1)))
        m.buffer
        (List.range' msg ((nullFreePrefix (m.mem.drop msg)).length + 1))
        (List.range' m.buffer ((rendered (payloadOf m msg)).length + 1)) := by
  have hlen := rendered_length_le (payloadOf m msg)
  obtain ⟨hb, _, _⟩ := hwf
  simp only [bufferSize] at hb
  unfold Terminated at ht
  have hr : (m.mem.drop msg).take (min (nullFreePrefix (m.mem.drop msg)).length (bufferSize - 1))
      = rendered (payloadOf m msg) := by
    rw [take_nullFreePrefix_length, rendered_payloadOf]; rfl
  have hk : min (nullFreePrefix (m.mem.drop msg)).length (bufferSize - 1)
      = (rendered (payloadOf m msg)).length := by
    rw [rendered_payloadOf]; simp [bufferSize, Nat.min_comm]
  simp only [toString, snprintf, scanFrom_eq, ht, if_true]
  rw [if_neg (by decide), hr, hk]
  rw [storeBytes_eq _ _ _ (by simp; omega)]
  simp

theorem toString_fault (m : Machine) (msg : Nat) (ht : ¬ Terminated m.mem msg) :
    toString m msg =
      Outcome.fault (List.range' msg ((nullFreePrefix (m.mem.drop msg)).length + 1)) := by
  unfold Terminated at ht
  simp only [toString, snprintf, scanFrom_eq, ht, if_false]

theorem nullFreePrefix_ne_zero (l : List Byte) : ∀ b ∈ nullFreePrefix l, b ≠ 0 := by
  intro b hb
  have := List.mem_takeWhile_imp hb
  simpa using this

theorem rendered_ne_zero (pay : List Byte) : ∀ b ∈ rendered pay, b ≠ 0 :=
  fun b hb => nullFreePrefix_ne_zero pay b (List.mem_of_mem_take hb)

theorem nullFreePrefix_append_zero (A C : List Byte) (hA : ∀ b ∈ A, b ≠ 0) :
    nullFreePrefix (A ++ 0 :: C) = A := by
  induction A with
  | nil => simp [nullFreePrefix_cons_zero]
  | cons a A ih =>
    have ha : a ≠ 0 := hA a (by simp)
    simp [nullFreePrefix_cons_ne a _ ha, ih (fun b hb => hA b (by simp [hb]))]

theorem nullFreePrefix_of_not_mem (A : List Byte) (hA : ∀ b ∈ A, b ≠ 0) :
    nullFreePrefix A = A := by
  induction A with
  | nil => rfl
  | cons a A ih =>
    have ha : a ≠ 0 := hA a (by simp)
    simp [nullFreePrefix_cons_ne a _ ha, ih (fun b hb => hA b (by simp [hb]))]

/-- A zero-free sequence followed by a zero byte reads back as that sequence. -/
theorem cstrAt_of_drop (mem : List Byte) (p : Nat) (s rest : List Byte)
    (hs : ∀ b ∈ s, b ≠ 0) (h : mem.drop p = s ++ 0 :: rest) : cstrAt mem p = some s := by
  simp [cstrAt, scanFrom_eq, h, nullFreePrefix_append_zero s rest hs]

theorem isCStr_append_zero (s rest : List Byte) (hs : ∀ b ∈ s, b ≠ 0) :
    IsCStr (s ++ 0 :: rest) s.length := by
  refine ⟨by rw [List.getElem?_append_right (Nat.le_refl _)]; simp, fun i hi h => ?_⟩
  rw [List.getElem?_append_left hi] at h
  exact hs 0 (List.getElem?_mem h) rfl

/-- What a returning call leaves behind. -/
theorem toString_inv (m : Machine) (msg : Nat) (hwf : WF m msg)
    (mem' : List Byte) (p : Nat) (rs ws : List Nat)
    (h : toString m msg = Outcome.done mem' p rs ws) :
    Terminated m.mem msg ∧ p = m.buffer ∧
      mem' = m.mem.take m.buffer ++ (rendered (payloadOf m msg) ++ [0]) ++
          m.mem.drop (m.buffer + ((rendered (payloadOf m msg)).length + 1)) ∧
      rs = List.range' msg ((nullFreePrefix (m.mem.drop msg)).length + 1) ∧
      ws = List.range' m.buffer ((rendered (payloadOf m msg)).length + 1) := by
  by_cases ht : Terminated m.mem msg
  · rw [toString_done m msg hwf ht] at h
    injection h with h1 h2 h3 h4
    exact ⟨ht, h2.symm, h1.symm, h3.symm, h4.symm⟩
  · rw [toString_fault m msg ht] at h
    cases h

theorem drop_buffer_after (mem : List Byte) (buf : Nat) (s : List Byte)
    (h : buf + (s.length + 1) ≤ mem.length) :
    (mem.take buf ++ (s ++ [0]) ++ mem.drop (buf + (s.length + 1))).drop buf
      = s ++ 0 :: mem.drop (buf + (s.length + 1)) := by
  have hl : (mem.take buf).length = buf := by simp; omega
  rw [List.append_assoc, List.drop_append_eq_append_drop, hl]
  simp [List.drop_eq_nil_of_le, hl]

theorem take_buffer_after (mem : List Byte) (buf : Nat) (s : List Byte)
    (h : buf + (s.length + 1) ≤ mem.length) :
    (mem.take buf ++ (s ++ [0]) ++ mem.drop (buf + (s.length + 1))).take buf
      = mem.take buf := by
  have hl : (mem.take buf).length = buf := by simp; omega
  rw [List.append_assoc, List.take_append_eq_append_take, hl]
  simp

theorem length_after (mem : List Byte) (buf : Nat) (s : List Byte)
    (h : buf + (s.length + 1) ≤ mem.length) :
    (mem.take buf ++ (s ++ [0]) ++ mem.drop (buf + (s.length + 1))).length = mem.length := by
  simp; omega

theorem getElem?_after (mem : List Byte) (buf : Nat) (s : List Byte)
    (h : buf + (s.length + 1) ≤ mem.length) (a : Nat)
    (ha : a < buf ∨ buf + (s.length + 1) ≤ a) :
    (mem.take buf ++ (s ++ [0]) ++ mem.drop (buf + (s.length + 1)))[a]? = mem[a]? := by
  have hl : (mem.take buf).length = buf := by simp; omega
  rcases ha with ha | ha
  · rw [List.append_assoc, List.getElem?_append_left (by omega)]
    simp [List.getElem?_take, ha]
  · rw [List.getElem?_append_right (by simp; omega)]
    simp only [List.length_append, hl, List.length_singleton, List.getElem?_drop]
    congr 1; omega

theorem isCStr_take (bs : List Byte) (n k : Nat) (hk : n < k) (h : IsCStr bs n) :
    IsCStr (bs.take k) n := by
  refine ⟨?_, fun i hi => ?_⟩
  · rw [List.getElem?_take_of_lt hk]; exact h.1
  · rw [List.getElem?_take_of_lt (by omega)]; exact h.2 i hi

theorem isCStr_split (bs : List Byte) (n : Nat) (h : IsCStr bs n) :
    bs = bs.take n ++ 0 :: bs.drop (n + 1) ∧ ∀ b ∈ bs.take n, b ≠ 0 := by
  obtain ⟨hz, hnz⟩ := h
  obtain ⟨hlt, hget⟩ := List.getElem?_eq_some.mp hz
  refine ⟨?_, fun b hb hb0 => ?_⟩
  · conv_lhs => rw [← List.take_append_drop n bs]
    rw [List.drop_eq_getElem_cons hlt, hget]
  · subst hb0
    obtain ⟨i, hi, hgi⟩ := List.getElem_of_mem hb
    have hi' : i < n := by simp at hi; omega
    apply hnz i hi'
    rw [List.getElem_take] at hgi
    rw [List.getElem?_eq_getElem (by simp at hi; omega), hgi]

theorem rendered_of_isCStr (bs : List Byte) (n : Nat) (hn : n ≤ 31) (h : IsCStr bs n) :
    rendered bs = bs.take n := by
  obtain ⟨hsplit, hnz⟩ := isCStr_split bs n h
  have : nullFreePrefix bs = bs.take n := by
    conv_lhs => rw [hsplit]
    exact nullFreePrefix_append_zero _ _ hnz
  rw [rendered, this, List.take_take]
  simp [bufferSize]; omega

theorem terminated_of_payload (m : Machine) (msg : Nat) (h : (0 : Byte) ∈ payloadOf m msg) :
    Terminated m.mem msg := List.mem_of_mem_take h

theorem payloadOf_length (m : Machine) (msg : Nat) (hwf : WF m msg) :
    (payloadOf m msg).length = 32 := by
  obtain ⟨_, h, _⟩ := hwf
  simp only [payloadCapacity] at h
  simp [payloadOf, bytesAt, payloadCapacity]; omega

/-- The Display Buffer after a returning call: the rendered string, a zero
byte, and behind it what the buffer held before. -/
theorem bufferOf_after (m : Machine) (msg : Nat) (hwf : WF m msg)
    (mem' : List Byte) (p : Nat) (rs ws : List Nat)
    (h : toString m msg = Outcome.done mem' p rs ws) :
    bufferOf m mem' = (rendered (payloadOf m msg) ++
      0 :: m.mem.drop (m.buffer + ((rendered (payloadOf m msg)).length + 1))).take 32 ∧
    mem'.drop m.buffer = rendered (payloadOf m msg) ++
      0 :: m.mem.drop (m.buffer + ((rendered (payloadOf m msg)).length + 1)) := by
  obtain ⟨_, _, hm, _, _⟩ := toString_inv m msg hwf mem' p rs ws h
  have hlen := rendered_length_le (payloadOf m msg)
  have hb := hwf.1
  simp only [bufferSize] at hb
  have := drop_buffer_after m.mem m.buffer (rendered (payloadOf m msg)) (by omega)
  rw [← hm] at this
  exact ⟨by rw [bufferOf, bytesAt, this]; rfl, this⟩

/-- The string a returning call leaves in the Display Buffer is `rendered` of
the payload. -/
theorem toString_string (m : Machine) (msg : Nat) (hwf : WF m msg)
    (mem' : List Byte) (p : Nat) (rs ws : List Nat)
    (h : toString m msg = Outcome.done mem' p rs ws) :
    cstrAt mem' m.buffer = some (rendered (payloadOf m msg)) ∧
      IsCStr (bufferOf m mem') (rendered (payloadOf m msg)).length ∧
      ∀ i, i < (rendered (payloadOf m msg)).length →
        (bufferOf m mem')[i]? = (rendered (payloadOf m msg))[i]? := by
  obtain ⟨hbuf, hdrop⟩ := bufferOf_after m msg hwf mem' p rs ws h
  have hlen := rendered_length_le (payloadOf m msg)
  refine ⟨cstrAt_of_drop _ _ _ _ (rendered_ne_zero _) hdrop, ?_, fun i hi => ?_⟩
  · rw [hbuf]
    exact isCStr_take _ _ 32 (by omega) (isCStr_append_zero _ _ (rendered_ne_zero _))
  · rw [hbuf, List.getElem?_take_of_lt (by omega), List.getElem?_append_left hi]

/-- The call returns, with the address of the Display Buffer, as soon as a
zero byte is readable at or after the payload. -/
theorem toString_returns (m : Machine) (msg : Nat) (hwf : WF m msg)
    (ht : Terminated m.mem msg) :
    ∃ mem' rs ws, toString m msg = Outcome.done mem' m.buffer rs ws :=
  ⟨_, _, _, toString_done m msg hwf ht⟩

theorem rendered_of_no_zero (bs : List Byte) (h : ∀ i, i < 31 → bs[i]? ≠ some 0) :
    rendered bs = bs.take 31 := by
  have hnz : ∀ b ∈ bs.take 31, b ≠ 0 := by
    intro b hb hb0
    subst hb0
    obtain ⟨i, hi, hgi⟩ := List.getElem_of_mem hb
    have hi' : i < 31 ∧ i < bs.length := by simp at hi; omega
    apply h i hi'.1
    rw [List.getElem_take] at hgi
    rw [List.getElem?_eq_getElem hi'.2, hgi]
  have h1 := nullFreePrefix_take bs 31 31 (Nat.le_refl _)
  rw [nullFreePrefix_of_not_mem _ hnz, List.take_take] at h1
  simpa [rendered, bufferSize] using h1.symm

/-- A returning call stores only inside the Display Buffer, from its start up
to the terminator of the rendered string. -/
theorem toString_frame (m : Machine) (msg : Nat) (hwf : WF m msg)
    (mem' : List Byte) (p : Nat) (rs ws : List Nat)
    (h : toString m msg = Outcome.done mem' p rs ws) :
    mem'.length = m.mem.length ∧
      (∀ a, a ∈ ws → m.buffer ≤ a ∧ a ≤ m.buffer + (rendered (payloadOf m msg)).length) ∧
      ∀ a, a < m.buffer ∨ m.buffer + (rendered (payloadOf m msg)).length < a →
        mem'[a]? = m.mem[a]? := by
  obtain ⟨_, _, hm, _, hw⟩ := toString_inv m msg hwf mem' p rs ws h
  have hlen := rendered_length_le (payloadOf m msg)
  have hb := hwf.1
  simp only [bufferSize] at hb
  refine ⟨by rw [hm]; exact length_after _ _ _ (by omega), fun a ha => ?_, fun a ha => ?_⟩
  · rw [hw, List.mem_range'_1] at ha
    omega
  · rw [hm]
    exact getElem?_after _ _ _ (by omega) a (by omega)

theorem mem_drop_zero_iff (l : List Byte) (a : Nat) :
    (0 : Byte) ∈ l.drop a ↔ ∃ i, a ≤ i ∧ l[i]? = some 0 := by
  constructor
  · intro h
    obtain ⟨i, hi⟩ := List.mem_iff_getElem?.mp h
    rw [List.getElem?_drop] at hi
    exact ⟨a + i, by omega, hi⟩
  · rintro ⟨i, hi, h⟩
    apply List.mem_iff_getElem?.mpr
    refine ⟨i - a, ?_⟩
    rw [List.getElem?_drop]
    have : a + (i - a) = i := by omega
    rw [this, h]

/-- A returning call leaves every payload byte as it was. -/
theorem toString_payload_unchanged (m : Machine) (msg : Nat) (hwf : WF m msg)
    (mem' : List Byte) (p : Nat) (rs ws : List Nat)
    (h : toString m msg = Outcome.done mem' p rs ws) :
    payloadOf ⟨mem', m.buffer⟩ msg = payloadOf m msg := by
  obtain ⟨_, _, hfr⟩ := toString_frame m msg hwf mem' p rs ws h
  have hlen := rendered_length_le (payloadOf m msg)
  obtain ⟨_, _, hdis⟩ := hwf
  simp only [payloadCapacity, bufferSize] at hdis
  apply List.ext_getElem?
  intro i
  simp only [payloadOf, bytesAt, payloadCapacity, List.getElem?_take, List.getElem?_drop]
  split
  · exact hfr (msg + i) (by omega)
  · rfl

/-- After a returning call a zero byte is still readable at or after the
payload. -/
theorem toString_terminated_after (m : Machine) (msg : Nat) (hwf : WF m msg)
    (mem' : List Byte) (p : Nat) (rs ws : List Nat)
    (h : toString m msg = Outcome.done mem' p rs ws) :
    Terminated mem' msg := by
  obtain ⟨ht, _, _, _, _⟩ := toString_inv m msg hwf mem' p rs ws h
  obtain ⟨_, _, hfr⟩ := toString_frame m msg hwf mem' p rs ws h
  obtain ⟨_, hdrop⟩ := bufferOf_after m msg hwf mem' p rs ws h
  have hlen := rendered_length_le (payloadOf m msg)
  have hdis := hwf.2.2
  simp only [payloadCapacity, bufferSize] at hdis
  unfold Terminated at ht ⊢
  rw [mem_drop_zero_iff] at ht ⊢
  rcases hdis with hd | hd
  · refine ⟨m.buffer + (rendered (payloadOf m msg)).length, by omega, ?_⟩
    rw [← List.getElem?_drop, hdrop, List.getElem?_append_right (Nat.le_refl _)]
    simp
  · obtain ⟨i, hi, hz⟩ := ht
    by_cases hin : i < m.buffer ∨ m.buffer + (rendered (payloadOf m msg)).length < i
    · exact ⟨i, hi, by rw [hfr i hin]; exact hz⟩
    · omega

/-- The call returns exactly when a zero byte is readable at or after the
first payload byte. -/
theorem toString_returns_iff (m : Machine) (msg : Nat) (hwf : WF m msg) :
    (∃ mem' p rs ws, toString m msg = Outcome.done mem' p rs ws) ↔ Terminated m.mem msg := by
  constructor
  · rintro ⟨mem', p, rs, ws, h⟩
    exact (toString_inv m msg hwf mem' p rs ws h).1
  · intro ht
    exact ⟨_, _, _, _, toString_done m msg hwf ht⟩

/-- The addresses the call reads, whether it returns or faults: the payload
from its first byte up to and including the first zero byte met at or after
it, or one address past the end of the memory when there is none. -/
theorem toString_reads (m : Machine) (msg : Nat) (hwf : WF m msg) :
    (toString m msg).reads = List.range' msg ((nullFreePrefix (m.mem.drop msg)).length + 1) := by
  by_cases ht : Terminated m.mem msg
  · rw [toString_done m msg hwf ht]; rfl
  · rw [toString_fault m msg ht]; rfl

/-- The scan stays inside the payload exactly when the payload holds a zero
byte. -/
theorem toString_reads_inside_iff (m : Machine) (msg : Nat) (hwf : WF m msg) :
    (∀ a, a ∈ (toString m msg).reads → a < msg + payloadCapacity) ↔
      (0 : Byte) ∈ payloadOf m msg := by
  rw [toString_reads m msg hwf]
  have hlen := payloadOf_length m msg hwf
  have hpre : (nullFreePrefix (payloadOf m msg)).take 32 = (nullFreePrefix (m.mem.drop msg)).take 32 :=
    nullFreePrefix_take _ 32 32 (Nat.le_refl _)
  constructor
  · intro h
    by_contra hz
    have hnz : ∀ b ∈ payloadOf m msg, b ≠ 0 := fun b hb hb0 => hz (hb0 ▸ hb)
    rw [nullFreePrefix_of_not_mem _ hnz] at hpre
    have hl := congrArg List.length hpre
    simp only [List.length_take, hlen] at hl
    have := h (msg + 32) (by rw [List.mem_range'_1]; omega)
    simp [payloadCapacity] at this
  · intro hz a ha
    rw [List.mem_range'_1] at ha
    obtain ⟨i, hi⟩ := List.mem_iff_getElem?.mp hz
    have hi32 : i < 32 := by
      have := (List.getElem?_eq_some.mp hi).1
      omega
    have hshort : (nullFreePrefix (payloadOf m msg)).length ≤ i := by
      by_contra hgt
      have hgt : i < (nullFreePrefix (payloadOf m msg)).length := by omega
      have hmem : (nullFreePrefix (payloadOf m msg))[i] ∈ nullFreePrefix (payloadOf m msg) :=
        List.getElem_mem _
      have hpfx : (nullFreePrefix (payloadOf m msg)) <+: payloadOf m msg :=
        List.takeWhile_prefix _
      have := List.IsPrefix.getElem hpfx hgt
      rw [List.getElem?_eq_getElem (by omega)] at hi
      have h0 : (nullFreePrefix (payloadOf m msg))[i] = 0 := by
        rw [this]; exact Option.some.inj hi
      exact nullFreePrefix_ne_zero _ _ hmem h0
    have hl := congrArg List.length hpre
    simp only [List.length_take] at hl
    simp only [payloadCapacity]
    omega

/-- The rendering of a payload is a function of its first 31 bytes. -/
theorem rendered_take (bs : List Byte) : rendered (bs.take 31) = rendered bs := by
  simp only [rendered, bufferSize]
  exact nullFreePrefix_take bs 31 31 (Nat.le_refl _)

/-- A returning call leaves the payload of every other message as it was. -/
theorem toString_other_payload_unchanged (m : Machine) (msg msg₂ : Nat) (hwf : WF m msg)
    (hwf₂ : WF m msg₂) (mem' : List Byte) (p : Nat) (rs ws : List Nat)
    (h : toString m msg = Outcome.done mem' p rs ws) :
    payloadOf ⟨mem', m.buffer⟩ msg₂ = payloadOf m msg₂ := by
  obtain ⟨_, _, hfr⟩ := toString_frame m msg hwf mem' p rs ws h
  have hlen := rendered_length_le (payloadOf m msg)
  obtain ⟨_, _, hdis⟩ := hwf₂
  simp only [payloadCapacity, bufferSize] at hdis
  apply List.ext_getElem?
  intro i
  simp only [payloadOf, bytesAt, payloadCapacity, List.getElem?_take, List.getElem?_drop]
  split
  · exact hfr (msg₂ + i) (by omega)
  · rfl

/-- After a returning call a zero byte is readable at or after the payload of
every message for which one was readable before. -/
theorem toString_other_terminated_after (m : Machine) (msg msg₂ : Nat) (hwf : WF m msg)
    (hwf₂ : WF m msg₂) (ht₂ : Terminated m.mem msg₂)
    (mem' : List Byte) (p : Nat) (rs ws : List Nat)
    (h : toString m msg = Outcome.done mem' p rs ws) :
    Terminated mem' msg₂ := by
  obtain ⟨_, _, hfr⟩ := toString_frame m msg hwf mem' p rs ws h
  obtain ⟨_, hdrop⟩ := bufferOf_after m msg hwf mem' p rs ws h
  have hlen := rendered_length_le (payloadOf m msg)
  have hdis := hwf₂.2.2
  simp only [payloadCapacity, bufferSize] at hdis
  unfold Terminated at ht₂ ⊢
  rw [mem_drop_zero_iff] at ht₂ ⊢
  rcases hdis with hd | hd
  · refine ⟨m.buffer + (rendered (payloadOf m msg)).length, by omega, ?_⟩
    rw [← List.getElem?_drop, hdrop, List.getElem?_append_right (Nat.le_refl _)]
    simp
  · obtain ⟨i, hi, hz⟩ := ht₂
    exact ⟨i, hi, by rw [hfr i (by omega)]; exact hz⟩

/-! ## Returning calls on payloads without a terminator -/

/-- When a zero byte is readable at or after the payload, a payload with no
zero byte among its first 31 bytes, the payload of 32 non-zero bytes included,
renders to the string of length exactly 31 made of
its first 31 bytes, with the terminator at `buffer[31]`; every store of the
call goes to a Display Buffer index below 32 and the memory outside the
Display Buffer is left as it was.  The call returns as soon as a zero byte is
readable at or after the payload. -/
theorem toString_unterminated_payload (m : Machine) (msg : Nat) (hwf : WF m msg)
    (hP : ∀ i, i < 31 → (payloadOf m msg)[i]? ≠ some 0)
    (ht : Terminated m.mem msg) :
    ∃ mem' rs ws, toString m msg = Outcome.done mem' m.buffer rs ws ∧
      cstrAt mem' m.buffer = some ((payloadOf m msg).take 31) ∧
      ((payloadOf m msg).take 31).length = 31 ∧
      (bufferOf m mem')[31]? = some 0 ∧
      (∀ i, i < 31 → (bufferOf m mem')[i]? = (payloadOf m msg)[i]?) ∧
      (∀ a, a ∈ ws → m.buffer ≤ a ∧ a < m.buffer + 32) ∧
      ∀ a, a < m.buffer ∨ m.buffer + 32 ≤ a → mem'[a]? = m.mem[a]? := by
  have hr := rendered_of_no_zero _ hP
  have hlen := payloadOf_length m msg hwf
  have hln : ((payloadOf m msg).take 31).length = 31 := by simp; omega
  obtain ⟨mem', rs, ws, hdone⟩ := toString_returns m msg hwf ht
  obtain ⟨h1, h2, h3⟩ := toString_string m msg hwf _ _ _ _ hdone
  obtain ⟨_, h5, h6⟩ := toString_frame m msg hwf _ _ _ _ hdone
  rw [hr] at h1 h2 h3 h5 h6
  rw [hln] at h2 h3 h5 h6
  refine ⟨_, _, _, hdone, h1, hln, h2.1, fun i hi => ?_, fun a ha => ?_, fun a ha => ?_⟩
  · rw [h3 i hi, List.getElem?_take_of_lt hi]
  · have := h5 a ha
    omega
  · exact h6 a (by omega)

/-- The overflow case with a terminator behind the payload: 32 non-zero payload bytes, the zero
byte that ends the scan lying behind the payload. -/
theorem toString_unterminated_payload_witness :
    WF (layout (List.replicate 32 85) payloadFull [66, 0]) 32 ∧
    (∀ i, i < 32 → (payloadOf (layout (List.replicate 32 85) payloadFull [66, 0]) 32)[i]? ≠ some 0) ∧
    ∃ mem' rs ws,
      toString (layout (List.replicate 32 85) payloadFull [66, 0]) 32 =
        Outcome.done mem' 0 rs ws ∧
      cstrAt mem' 0 = some (payloadFull.take 31) ∧
      (payloadFull.take 31).length = 31 ∧
      (bufferOf (layout (List.replicate 32 85) payloadFull [66, 0]) mem')[31]? = some 0 ∧
      (∀ i, i < 31 → (bufferOf (layout (List.replicate 32 85) payloadFull [66, 0]) mem')[i]? =
        (payloadOf (layout (List.replicate 32 85) payloadFull [66, 0]) 32)[i]?) ∧
      (∀ a, a ∈ ws → 0 ≤ a ∧ a < 0 + 32) ∧
      ∀ a, a < 0 ∨ 0 + 32 ≤ a →
        mem'[a]? = (layout (List.replicate 32 85) payloadFull [66, 0]).mem[a]? :=
  ⟨by decide, by decide,
    toString_unterminated_payload (layout (List.replicate 32 85) payloadFull [66, 0]) 32
      (by decide) (by decide) (by decide)⟩

/-- Among returning calls the rendered string is determined by the first 31
bytes of the payload.  Two payloads that agree on bytes `0..30` render to the same string,
whatever byte 31 and the memory behind the payload hold, and that string is
the longest zero-free prefix of the payload cut to at most 31 bytes.  Each call
returns as soon as a zero byte is readable at or after its payload. -/
theorem toString_determined_by_first_31 (m₁ m₂ : Machine) (msg₁ msg₂ : Nat)
    (hwf₁ : WF m₁ msg₁) (hwf₂ : WF m₂ msg₂)
    (hagree : (payloadOf m₁ msg₁).take 31 = (payloadOf m₂ msg₂).take 31)
    (ht₁ : Terminated m₁.mem msg₁) (ht₂ : Terminated m₂.mem msg₂) :
    ∃ mem₁ rs₁ ws₁ mem₂ rs₂ ws₂,
      toString m₁ msg₁ = Outcome.done mem₁ m₁.buffer rs₁ ws₁ ∧
      toString m₂ msg₂ = Outcome.done mem₂ m₂.buffer rs₂ ws₂ ∧
      cstrAt mem₁ m₁.buffer = cstrAt mem₂ m₂.buffer ∧
      cstrAt mem₁ m₁.buffer = some ((nullFreePrefix (payloadOf m₁ msg₁)).take 31) ∧
      cstrAt mem₂ m₂.buffer = some ((nullFreePrefix (payloadOf m₂ msg₂)).take 31) := by
  obtain ⟨mem₁, rs₁, ws₁, hd₁⟩ := toString_returns m₁ msg₁ hwf₁ ht₁
  obtain ⟨mem₂, rs₂, ws₂, hd₂⟩ := toString_returns m₂ msg₂ hwf₂ ht₂
  have h₁ := (toString_string m₁ msg₁ hwf₁ _ _ _ _ hd₁).1
  have h₂ := (toString_string m₂ msg₂ hwf₂ _ _ _ _ hd₂).1
  have hr : rendered (payloadOf m₁ msg₁) = rendered (payloadOf m₂ msg₂) := by
    rw [← rendered_take (payloadOf m₁ msg₁), hagree, rendered_take]
  exact ⟨_, _, _, _, _, _, hd₁, hd₂, by rw [h₁, h₂, hr], h₁, h₂⟩

/-- The exact-fit payload (byte 31 zero) and the overflow
payload (byte 31 non-zero, other bytes behind it) agree on bytes `0..30` and
render to the same 31-byte string. -/
theorem toString_determined_by_first_31_witness :
    WF (layout (List.replicate 32 85) payloadExactFit []) 32 ∧
    WF (layout (List.replicate 32 17) payloadFull [66, 0]) 32 ∧
    payloadOf (layout (List.replicate 32 85) payloadExactFit []) 32 ≠
      payloadOf (layout (List.replicate 32 17) payloadFull [66, 0]) 32 ∧
    (nullFreePrefix (payloadOf (layout (List.replicate 32 85) payloadExactFit []) 32)).take 31 =
      List.replicate 31 65 ∧
    ∃ mem₁ rs₁ ws₁ mem₂ rs₂ ws₂,
      toString (layout (List.replicate 32 85) payloadExactFit []) 32 =
        Outcome.done mem₁ 0 rs₁ ws₁ ∧
      toString (layout (List.replicate 32 17) payloadFull [66, 0]) 32 =
        Outcome.done mem₂ 0 rs₂ ws₂ ∧
      cstrAt mem₁ 0 = cstrAt mem₂ 0 ∧
      cstrAt mem₁ 0 = some ((nullFreePrefix
        (payloadOf (layout (List.replicate 32 85) payloadExactFit []) 32)).take 31) ∧
      cstrAt mem₂ 0 = some ((nullFreePrefix
        (payloadOf (layout (List.replicate 32 17) payloadFull [66, 0]) 32)).take 31) :=
  ⟨by decide, by decide, by decide, by decide,
    toString_determined_by_first_31 (layout (List.replicate 32 85) payloadExactFit [])
      (layout (List.replicate 32 17) payloadFull [66, 0]) 32 32
      (by decide) (by decide) (by decide) (by decide) (by decide)⟩

/-! ## The claims -/

/-- C1: whenever `toString` returns, the 32-byte Display Buffer holds a
null-terminated string of length at most 31, whatever the payload and whatever
the buffer held before: some index `n ≤ 31` has `buffer[n] = 0` and no byte
before it is zero. -/
theorem toString_buffer_null_terminated (m : Machine) (msg : Nat) (hwf : WF m msg)
    (mem' : List Byte) (p : Nat) (rs ws : List Nat)
    (hret : toString m msg = Outcome.done mem' p rs ws) :
    (bufferOf m mem').length = 32 ∧ ∃ n, n ≤ 31 ∧ IsCStr (bufferOf m mem') n := by
  obtain ⟨hbuf, _⟩ := bufferOf_after m msg hwf mem' p rs ws hret
  obtain ⟨_, _, hm, _, _⟩ := toString_inv m msg hwf mem' p rs ws hret
  have hlen := rendered_length_le (payloadOf m msg)
  have hb := hwf.1
  simp only [bufferSize] at hb
  have hl : mem'.length = m.mem.length := by
    rw [hm]; exact length_after _ _ _ (by omega)
  refine ⟨by simp [bufferOf, bytesAt, bufferSize, hl]; omega, (rendered (payloadOf m msg)).length,
    hlen, ?_⟩
  rw [hbuf]
  exact isCStr_take _ _ 32 (by omega) (isCStr_append_zero _ _ (rendered_ne_zero _))

/-- Witness for C1: the overflow payload (32 non-zero bytes, a zero byte
behind it) over a Display Buffer full of non-zero bytes. -/
theorem toString_buffer_null_terminated_witness :
    WF (layout (List.replicate 32 85) payloadFull [0]) 32 ∧
    toString (layout (List.replicate 32 85) payloadFull [0]) 32 =
      Outcome.done (List.replicate 31 65 ++ [0] ++ payloadFull ++ [0]) 0
        (List.range' 32 33) (List.range' 0 32) ∧
    (bufferOf (layout (List.replicate 32 85) payloadFull [0])
        (List.replicate 31 65 ++ [0] ++ payloadFull ++ [0])).length = 32 ∧
    ∃ n, n ≤ 31 ∧ IsCStr (bufferOf (layout (List.replicate 32 85) payloadFull [0])
        (List.replicate 31 65 ++ [0] ++ payloadFull ++ [0])) n :=
  ⟨by decide, by decide,
    toString_buffer_null_terminated (layout (List.replicate 32 85) payloadFull [0]) 32
      (by decide) (List.replicate 31 65 ++ [0] ++ payloadFull ++ [0]) 0
      (List.range' 32 33) (List.range' 0 32) (by decide)⟩

/-- C2: a payload whose first zero byte is at an index `n ≤ 31` renders to
exactly its bytes `0..n-1`: the call returns the Display Buffer, the string
read there is the payload's first `n` bytes, it has length `n`, and byte `i`
of the buffer equals byte `i` of the payload for every `i < n`. -/
theorem toString_terminated_payload (m : Machine) (msg : Nat) (hwf : WF m msg)
    (n : Nat) (hn : n ≤ 31) (hP : IsCStr (payloadOf m msg) n) :
    ∃ mem' rs ws, toString m msg = Outcome.done mem' m.buffer rs ws ∧
      cstrAt mem' m.buffer = some ((payloadOf m msg).take n) ∧
      ((payloadOf m msg).take n).length = n ∧
      IsCStr (bufferOf m mem') n ∧
      ∀ i, i < n → (bufferOf m mem')[i]? = (payloadOf m msg)[i]? := by
  have ht : Terminated m.mem msg :=
    terminated_of_payload m msg (List.getElem?_mem hP.1)
  have hr := rendered_of_isCStr _ n hn hP
  have hlen := payloadOf_length m msg hwf
  have hln : ((payloadOf m msg).take n).length = n := by simp; omega
  obtain ⟨mem', rs, ws, hdone⟩ := toString_returns m msg hwf ht
  obtain ⟨h1, h2, h3⟩ := toString_string m msg hwf _ _ _ _ hdone
  rw [hr] at h1 h2 h3
  rw [hln] at h2 h3
  refine ⟨_, _, _, hdone, h1, hln, h2, fun i hi => ?_⟩
  rw [h3 i hi, List.getElem?_take_of_lt hi]

/-- Witness for C2, the exact-fit case: 31 non-zero bytes followed by one zero
byte render to the 31-byte string made of those bytes. -/
theorem toString_terminated_payload_witness :
    WF (layout (List.replicate 32 85) payloadExactFit []) 32 ∧
    IsCStr (payloadOf (layout (List.replicate 32 85) payloadExactFit []) 32) 31 ∧
    payloadExactFit.take 31 = List.replicate 31 65 ∧
    ∃ mem' rs ws,
      toString (layout (List.replicate 32 85) payloadExactFit []) 32 =
        Outcome.done mem' 0 rs ws ∧
      cstrAt mem' 0 = some ((payloadOf (layout (List.replicate 32 85) payloadExactFit []) 32).take 31) ∧
      ((payloadOf (layout (List.replicate 32 85) payloadExactFit []) 32).take 31).length = 31 ∧
      IsCStr (bufferOf (layout (List.replicate 32 85) payloadExactFit []) mem') 31 ∧
      ∀ i, i < 31 → (bufferOf (layout (List.replicate 32 85) payloadExactFit []) mem')[i]? =
        (payloadOf (layout (List.replicate 32 85) payloadExactFit []) 32)[i]? :=
  ⟨by decide, by decide, by decide,
    toString_terminated_payload (layout (List.replicate 32 85) payloadExactFit []) 32
      (by decide) 31 (by decide) (by decide)⟩

/-- C3, the code at the failing input: the payload of 32 non-zero bytes has no
zero byte among its first 31 bytes, yet with only non-zero bytes between it and
the end of the memory `toString` faults in the scan for the terminator: it
returns no string, and it faults before it has stored anything. -/
theorem toString_unterminated_no_string :
    WF (layout (List.replicate 32 85) payloadFull [66, 67]) 32 ∧
    payloadOf (layout (List.replicate 32 85) payloadFull [66, 67]) 32 = payloadFull ∧
    (∀ i, i < 31 →
      (payloadOf (layout (List.replicate 32 85) payloadFull [66, 67]) 32)[i]? ≠ some 0) ∧
    toString (layout (List.replicate 32 85) payloadFull [66, 67]) 32 =
      Outcome.fault (List.range' 32 35) ∧
    ∀ mem' p rs ws,
      toString (layout (List.replicate 32 85) payloadFull [66, 67]) 32 ≠
        Outcome.done mem' p rs ws := by
  refine ⟨by decide, by decide, by decide, by decide, fun mem' p rs ws h => ?_⟩
  have hf : toString (layout (List.replicate 32 85) payloadFull [66, 67]) 32 =
      Outcome.fault (List.range' 32 35) := by decide
  rw [hf] at h
  cases h

/-- C4: rendering stops at the first zero byte of the payload.  When the first
zero byte of a payload is at index `k < 32`, the rendered string is the `k`
bytes before it, and any other payload that agrees with it on bytes `0..k`
renders to the same string: the bytes at indices above `k` have no influence. -/
theorem toString_stops_at_first_null (m₁ m₂ : Machine) (msg₁ msg₂ : Nat)
    (hwf₁ : WF m₁ msg₁) (hwf₂ : WF m₂ msg₂) (k : Nat) (hk : k < 32)
    (hP : IsCStr (payloadOf m₁ msg₁) k)
    (hagree : (payloadOf m₁ msg₁).take (k + 1) = (payloadOf m₂ msg₂).take (k + 1)) :
    ∃ mem₁ rs₁ ws₁ mem₂ rs₂ ws₂,
      toString m₁ msg₁ = Outcome.done mem₁ m₁.buffer rs₁ ws₁ ∧
      toString m₂ msg₂ = Outcome.done mem₂ m₂.buffer rs₂ ws₂ ∧
      cstrAt mem₁ m₁.buffer = some ((payloadOf m₁ msg₁).take k) ∧
      cstrAt mem₂ m₂.buffer = cstrAt mem₁ m₁.buffer := by
  have hP₂ : IsCStr (payloadOf m₂ msg₂) k := by
    have hget : ∀ i, i < k + 1 → (payloadOf m₂ msg₂)[i]? = (payloadOf m₁ msg₁)[i]? := by
      intro i hi
      rw [← List.getElem?_take_of_lt hi, ← hagree, List.getElem?_take_of_lt hi]
    exact ⟨by rw [hget k (by omega)]; exact hP.1,
      fun i hi => by rw [hget i (by omega)]; exact hP.2 i hi⟩
  have hr₁ := rendered_of_isCStr _ k (by omega) hP
  have hr₂ := rendered_of_isCStr _ k (by omega) hP₂
  have heq : (payloadOf m₂ msg₂).take k = (payloadOf m₁ msg₁).take k := by
    have := congrArg (List.take k) hagree
    simpa [List.take_take] using this.symm
  obtain ⟨mem₁, rs₁, ws₁, hd₁⟩ := toString_returns m₁ msg₁ hwf₁
    (terminated_of_payload m₁ msg₁ (List.getElem?_mem hP.1))
  obtain ⟨mem₂, rs₂, ws₂, hd₂⟩ := toString_returns m₂ msg₂ hwf₂
    (terminated_of_payload m₂ msg₂ (List.getElem?_mem hP₂.1))
  have h₁ := (toString_string m₁ msg₁ hwf₁ _ _ _ _ hd₁).1
  have h₂ := (toString_string m₂ msg₂ hwf₂ _ _ _ _ hd₂).1
  rw [hr₁] at h₁
  rw [hr₂, heq] at h₂
  exact ⟨_, _, _, _, _, _, hd₁, hd₂, h₁, by rw [h₁, h₂]⟩

/-- Witness for C4: the payload bytes a, b, 0, c, d render to the string a, b;
a payload with other bytes behind the zero byte renders to the same string. -/
theorem toString_stops_at_first_null_witness :
    WF (layout (List.replicate 32 85) payloadAb []) 32 ∧
    WF (layout (List.replicate 32 17) ([97, 98, 0] ++ List.replicate 29 120) [5]) 32 ∧
    IsCStr (payloadOf (layout (List.replicate 32 85) payloadAb []) 32) 2 ∧
    (payloadOf (layout (List.replicate 32 85) payloadAb []) 32).take 2 = [97, 98] ∧
    ∃ mem₁ rs₁ ws₁ mem₂ rs₂ ws₂,
      toString (layout (List.replicate 32 85) payloadAb []) 32 = Outcome.done mem₁ 0 rs₁ ws₁ ∧
      toString (layout (List.replicate 32 17) ([97, 98, 0] ++ List.replicate 29 120) [5]) 32 =
        Outcome.done mem₂ 0 rs₂ ws₂ ∧
      cstrAt mem₁ 0 = some ((payloadOf (layout (List.replicate 32 85) payloadAb []) 32).take 2) ∧
      cstrAt mem₂ 0 = cstrAt mem₁ 0 :=
  ⟨by decide, by decide, by decide, by decide,
    toString_stops_at_first_null (layout (List.replicate 32 85) payloadAb [])
      (layout (List.replicate 32 17) ([97, 98, 0] ++ List.replicate 29 120) [5]) 32 32
      (by decide) (by decide) 2 (by decide) (by decide) (by decide)⟩

/-- C5, the code at the failing input: with a payload of 32 non-zero bytes at
addresses 32..63, the scan of `toString` reads the addresses 64 and 65, the
payload indices 32 and 33, which lie behind the payload. -/
theorem toString_reads_past_payload :
    payloadOf (layout (List.replicate 32 85) payloadFull [66, 0]) 32 = payloadFull ∧
    toString (layout (List.replicate 32 85) payloadFull [66, 0]) 32 =
      Outcome.done (List.replicate 31 65 ++ [0] ++ payloadFull ++ [66, 0]) 0
        (List.range' 32 34) (List.range' 0 32) ∧
    32 + payloadCapacity ∈ List.range' 32 34 ∧ 32 + payloadCapacity + 1 ∈ List.range' 32 34 := by
  decide

/-- C6, the code at the failing input: with a payload of 32 non-zero bytes that
ends where the readable memory ends, the scan of `toString` runs off the
memory at address 64 and the call does not return. -/
theorem toString_faults_without_terminator :
    WF (layout (List.replicate 32 0) payloadFull []) 32 ∧
    payloadOf (layout (List.replicate 32 0) payloadFull []) 32 = payloadFull ∧
    (layout (List.replicate 32 0) payloadFull []).mem.length = 64 ∧
    toString (layout (List.replicate 32 0) payloadFull []) 32 =
      Outcome.fault (List.range' 32 33) := by
  decide

/-- C7: idempotence.  When a call of `toString` has returned, a second call on
the same message, made in the memory the first left, returns the same pointer
and leaves the memory, hence the Display Buffer, exactly as the first left it;
the string read after the second call is the string read after the first. -/
theorem toString_idempotent (m : Machine) (msg : Nat) (hwf : WF m msg)
    (mem' : List Byte) (p : Nat) (rs ws : List Nat)
    (hret : toString m msg = Outcome.done mem' p rs ws) :
    ∃ mem'' p' rs' ws',
      toString ⟨mem', m.buffer⟩ msg = Outcome.done mem'' p' rs' ws' ∧
      mem'' = mem' ∧ p' = p ∧ ws' = ws ∧
      bufferOf m mem'' = bufferOf m mem' ∧
      cstrAt mem'' p' = cstrAt mem' p ∧
      cstrAt mem' p = some (rendered (payloadOf m msg)) := by
  obtain ⟨_, hp, hm, _, hw⟩ := toString_inv m msg hwf mem' p rs ws hret
  obtain ⟨hl, _, _⟩ := toString_frame m msg hwf mem' p rs ws hret
  obtain ⟨_, hdrop⟩ := bufferOf_after m msg hwf mem' p rs ws hret
  have hstr := (toString_string m msg hwf mem' p rs ws hret).1
  have hpay := toString_payload_unchanged m msg hwf mem' p rs ws hret
  have hterm := toString_terminated_after m msg hwf mem' p rs ws hret
  have hlen := rendered_length_le (payloadOf m msg)
  have hb := hwf.1
  simp only [bufferSize] at hb
  have hwf' : WF ⟨mem', m.buffer⟩ msg := by
    unfold WF at hwf ⊢
    simpa [hl] using hwf
  have hdone := toString_done ⟨mem', m.buffer⟩ msg hwf' hterm
  rw [hpay] at hdone
  have hsame : mem'.take m.buffer ++ (rendered (payloadOf m msg) ++ [0]) ++
      mem'.drop (m.buffer + ((rendered (payloadOf m msg)).length + 1)) = mem' := by
    have h1 : mem'.take m.buffer = m.mem.take m.buffer := by
      rw [hm]; exact take_buffer_after _ _ _ (by omega)
    have h2 : mem'.drop (m.buffer + ((rendered (payloadOf m msg)).length + 1))
        = m.mem.drop (m.buffer + ((rendered (payloadOf m msg)).length + 1)) := by
      rw [← List.drop_drop, hdrop]
      simp
    rw [h1, h2, ← hm]
  simp only at hdone
  rw [hsame] at hdone
  exact ⟨_, _, _, _, hdone, rfl, hp.symm, hw.symm, rfl, by rw [hp], by rw [hp]; exact hstr⟩

/-- Witness for C7: the overflow payload at addresses 0..31 with the Display
Buffer right behind it; the scan of either call ends inside the buffer. -/
theorem toString_idempotent_witness :
    WF (Machine.mk (payloadFull ++ (List.replicate 31 85 ++ [0])) 32) 0 ∧
    toString (Machine.mk (payloadFull ++ (List.replicate 31 85 ++ [0])) 32) 0 =
      Outcome.done (payloadFull ++ (List.replicate 31 65 ++ [0])) 32
        (List.range' 0 64) (List.range' 32 32) ∧
    ∃ mem'' p' rs' ws',
      toString (Machine.mk (payloadFull ++ (List.replicate 31 65 ++ [0])) 32) 0 =
        Outcome.done mem'' p' rs' ws' ∧
      mem'' = payloadFull ++ (List.replicate 31 65 ++ [0]) ∧ p' = 32 ∧
      ws' = List.range' 32 32 ∧
      bufferOf (Machine.mk (payloadFull ++ (List.replicate 31 85 ++ [0])) 32) mem'' =
        bufferOf (Machine.mk (payloadFull ++ (List.replicate 31 85 ++ [0])) 32)
          (payloadFull ++ (List.replicate 31 65 ++ [0])) ∧
      cstrAt mem'' p' = cstrAt (payloadFull ++ (List.replicate 31 65 ++ [0])) 32 ∧
      cstrAt (payloadFull ++ (List.replicate 31 65 ++ [0])) 32 =
        some (rendered (payloadOf (Machine.mk (payloadFull ++ (List.replicate 31 85 ++ [0])) 32) 0)) :=
  ⟨by decide, by decide,
    toString_idempotent (Machine.mk (payloadFull ++ (List.replicate 31 85 ++ [0])) 32) 0
      (by decide) (payloadFull ++ (List.replicate 31 65 ++ [0])) 32
      (List.range' 0 64) (List.range' 32 32) (by decide)⟩

/-- C8 as stated fails: two messages with different payloads, a, b, 0, c, d
and a, b, 0, x, x, rendered one after the other.  Both calls return the
address of the Display Buffer, and the string read through the first call's
pointer after the second call is a, b: it is the rendering of the second
payload and of the first payload alike. -/
theorem toString_alias_same_rendering :
    payloadOf (layout (List.replicate 32 85) payloadAb ([97, 98, 0] ++ List.replicate 29 120)) 32 ≠
      payloadOf (layout (List.replicate 32 85) payloadAb ([97, 98, 0] ++ List.replicate 29 120)) 64 ∧
    toString (layout (List.replicate 32 85) payloadAb ([97, 98, 0] ++ List.replicate 29 120)) 32 =
      Outcome.done
        ([97, 98, 0] ++ List.replicate 29 85 ++ payloadAb ++ ([97, 98, 0] ++ List.replicate 29 120))
        0 (List.range' 32 3) (List.range' 0 3) ∧
    toString (Machine.mk
        ([97, 98, 0] ++ List.replicate 29 85 ++ payloadAb ++ ([97, 98, 0] ++ List.replicate 29 120))
        0) 64 =
      Outcome.done
        ([97, 98, 0] ++ List.replicate 29 85 ++ payloadAb ++ ([97, 98, 0] ++ List.replicate 29 120))
        0 (List.range' 64 3) (List.range' 0 3) ∧
    cstrAt ([97, 98, 0] ++ List.replicate 29 85 ++ payloadAb ++
        ([97, 98, 0] ++ List.replicate 29 120)) 0 = some [97, 98] ∧
    rendered (payloadOf
        (layout (List.replicate 32 85) payloadAb ([97, 98, 0] ++ List.replicate 29 120)) 32) =
      [97, 98] := by
  decide

/-- C8, amended: aliasing.  For two messages in one memory, each with a zero
byte readable at or after its payload, `toString` of the first returns the
address of byte 0 of the shared Display Buffer, and `toString` of the second,
called in the memory the first call left, returns that same address.  The
string read through the first call's pointer after the second call is the
string the second call returned, the rendering of the second payload; it
differs from the string the first call returned exactly when the two payloads
render to different strings. -/
theorem toString_aliasing_sequence (m : Machine) (msg₁ msg₂ : Nat)
    (hwf₁ : WF m msg₁) (hwf₂ : WF m msg₂)
    (ht₁ : Terminated m.mem msg₁) (ht₂ : Terminated m.mem msg₂) :
    ∃ mem₁ p₁ rs₁ ws₁ mem₂ p₂ rs₂ ws₂,
      toString m msg₁ = Outcome.done mem₁ p₁ rs₁ ws₁ ∧
      toString ⟨mem₁, m.buffer⟩ msg₂ = Outcome.done mem₂ p₂ rs₂ ws₂ ∧
      p₁ = m.buffer + 0 ∧ p₂ = p₁ ∧
      cstrAt mem₁ p₁ = some (rendered (payloadOf m msg₁)) ∧
      cstrAt mem₂ p₂ = some (rendered (payloadOf m msg₂)) ∧
      cstrAt mem₂ p₁ = cstrAt mem₂ p₂ ∧
      (cstrAt mem₂ p₁ ≠ cstrAt mem₁ p₁ ↔
        rendered (payloadOf m msg₁) ≠ rendered (payloadOf m msg₂)) := by
  obtain ⟨mem₁, rs₁, ws₁, hd₁⟩ := toString_returns m msg₁ hwf₁ ht₁
  have hl := (toString_frame m msg₁ hwf₁ _ _ _ _ hd₁).1
  have hwf₂' : WF ⟨mem₁, m.buffer⟩ msg₂ := by
    unfold WF at hwf₂ ⊢
    simpa [hl] using hwf₂
  have ht₂' : Terminated mem₁ msg₂ :=
    toString_other_terminated_after m msg₁ msg₂ hwf₁ hwf₂ ht₂ _ _ _ _ hd₁
  have hpay := toString_other_payload_unchanged m msg₁ msg₂ hwf₁ hwf₂ _ _ _ _ hd₁
  obtain ⟨mem₂, rs₂, ws₂, hd₂⟩ := toString_returns ⟨mem₁, m.buffer⟩ msg₂ hwf₂' ht₂'
  have hs₁ := (toString_string m msg₁ hwf₁ _ _ _ _ hd₁).1
  have hs₂ := (toString_string ⟨mem₁, m.buffer⟩ msg₂ hwf₂' _ _ _ _ hd₂).1
  rw [hpay] at hs₂
  simp only at hs₂ hd₂
  refine ⟨mem₁, m.buffer, rs₁, ws₁, mem₂, m.buffer, rs₂, ws₂, hd₁, hd₂, rfl, rfl, hs₁, hs₂, rfl, ?_⟩
  rw [hs₁, hs₂]
  constructor
  · intro h heq
    exact h (by rw [heq])
  · intro h heq
    exact h (Option.some.inj heq).symm

/-- Witness for the amended C8: the payload a, b, 0, c, d and, behind it in
the same memory, the overflow payload followed by a zero byte. -/
theorem toString_aliasing_sequence_witness :
    WF (layout (List.replicate 32 85) payloadAb (payloadFull ++ [0])) 32 ∧
    WF (layout (List.replicate 32 85) payloadAb (payloadFull ++ [0])) 64 ∧
    Terminated (layout (List.replicate 32 85) payloadAb (payloadFull ++ [0])).mem 32 ∧
    Terminated (layout (List.replicate 32 85) payloadAb (payloadFull ++ [0])).mem 64 ∧
    ∃ mem₁ p₁ rs₁ ws₁ mem₂ p₂ rs₂ ws₂,
      toString (layout (List.replicate 32 85) payloadAb (payloadFull ++ [0])) 32 =
        Outcome.done mem₁ p₁ rs₁ ws₁ ∧
      toString ⟨mem₁, 0⟩ 64 = Outcome.done mem₂ p₂ rs₂ ws₂ ∧
      p₁ = 0 + 0 ∧ p₂ = p₁ ∧
      cstrAt mem₁ p₁ = some (rendered
        (payloadOf (layout (List.replicate 32 85) payloadAb (payloadFull ++ [0])) 32)) ∧
      cstrAt mem₂ p₂ = some (rendered
        (payloadOf (layout (List.replicate 32 85) payloadAb (payloadFull ++ [0])) 64)) ∧
      cstrAt mem₂ p₁ = cstrAt mem₂ p₂ ∧
      (cstrAt mem₂ p₁ ≠ cstrAt mem₁ p₁ ↔
        rendered (payloadOf (layout (List.replicate 32 85) payloadAb (payloadFull ++ [0])) 32) ≠
          rendered (payloadOf (layout (List.replicate 32 85) payloadAb (payloadFull ++ [0])) 64)) :=
  ⟨by decide, by decide, by decide, by decide,
    toString_aliasing_sequence (layout (List.replicate 32 85) payloadAb (payloadFull ++ [0])) 32 64
      (by decide) (by decide) (by decide) (by decide)⟩

/-- C9 as stated fails: the same payload a, b, 0, c, d rendered over two
Display Buffers that held different bytes leaves two different buffer contents;
the bytes behind the terminator are the ones each buffer held before. -/
theorem toString_buffer_depends_on_prior :
    payloadOf (layout (List.replicate 32 85) payloadAb []) 32 =
      payloadOf (layout (List.replicate 32 17) payloadAb []) 32 ∧
    toString (layout (List.replicate 32 85) payloadAb []) 32 =
      Outcome.done ([97, 98, 0] ++ List.replicate 29 85 ++ payloadAb) 0
        (List.range' 32 3) (List.range' 0 3) ∧
    toString (layout (List.replicate 32 17) payloadAb []) 32 =
      Outcome.done ([97, 98, 0] ++ List.replicate 29 17 ++ payloadAb) 0
        (List.range' 32 3) (List.range' 0 3) ∧
    bufferOf (layout (List.replicate 32 85) payloadAb [])
        ([97, 98, 0] ++ List.replicate 29 85 ++ payloadAb) ≠
      bufferOf (layout (List.replicate 32 17) payloadAb [])
        ([97, 98, 0] ++ List.replicate 29 17 ++ payloadAb) := by
  decide

/-- C9, amended: the rendered string the Display Buffer holds after
`toString` returns, its bytes up to and including the terminator, does not
depend on what the buffer (or any memory outside the payload) held before the
call: two returning runs on equal payloads end with the same string, of the
same length `n ≤ 31`, and with the same first `n + 1` buffer bytes. -/
theorem toString_string_independent_of_prior (m₁ m₂ : Machine) (msg₁ msg₂ : Nat)
    (hwf₁ : WF m₁ msg₁) (hwf₂ : WF m₂ msg₂)
    (hpay : payloadOf m₁ msg₁ = payloadOf m₂ msg₂)
    (mem₁ : List Byte) (p₁ : Nat) (rs₁ ws₁ : List Nat)
    (mem₂ : List Byte) (p₂ : Nat) (rs₂ ws₂ : List Nat)
    (hret₁ : toString m₁ msg₁ = Outcome.done mem₁ p₁ rs₁ ws₁)
    (hret₂ : toString m₂ msg₂ = Outcome.done mem₂ p₂ rs₂ ws₂) :
    cstrAt mem₁ p₁ = cstrAt mem₂ p₂ ∧
      ∃ n, n ≤ 31 ∧ IsCStr (bufferOf m₁ mem₁) n ∧ IsCStr (bufferOf m₂ mem₂) n ∧
        (bufferOf m₁ mem₁).take (n + 1) = (bufferOf m₂ mem₂).take (n + 1) := by
  obtain ⟨_, hp₁, _, _, _⟩ := toString_inv m₁ msg₁ hwf₁ mem₁ p₁ rs₁ ws₁ hret₁
  obtain ⟨_, hp₂, _, _, _⟩ := toString_inv m₂ msg₂ hwf₂ mem₂ p₂ rs₂ ws₂ hret₂
  obtain ⟨hs₁, hc₁, _⟩ := toString_string m₁ msg₁ hwf₁ mem₁ p₁ rs₁ ws₁ hret₁
  obtain ⟨hs₂, hc₂, _⟩ := toString_string m₂ msg₂ hwf₂ mem₂ p₂ rs₂ ws₂ hret₂
  obtain ⟨hb₁, _⟩ := bufferOf_after m₁ msg₁ hwf₁ mem₁ p₁ rs₁ ws₁ hret₁
  obtain ⟨hb₂, _⟩ := bufferOf_after m₂ msg₂ hwf₂ mem₂ p₂ rs₂ ws₂ hret₂
  have hlen := rendered_length_le (payloadOf m₂ msg₂)
  rw [hpay] at hs₁ hc₁ hb₁
  refine ⟨by rw [hp₁, hp₂, hs₁, hs₂], (rendered (payloadOf m₂ msg₂)).length, hlen, hc₁, hc₂, ?_⟩
  rw [hb₁, hb₂, List.take_take, List.take_take]
  have hmin : min ((rendered (payloadOf m₂ msg₂)).length + 1) 32
      = (rendered (payloadOf m₂ msg₂)).length + 1 := by omega
  rw [hmin]
  simp [List.take_append_eq_append_take]

/-- Witness for the amended C9: the two runs of the counterexample agree on
the rendered string. -/
theorem toString_string_independent_of_prior_witness :
    WF (layout (List.replicate 32 85) payloadAb []) 32 ∧
    WF (layout (List.replicate 32 17) payloadAb []) 32 ∧
    (cstrAt ([97, 98, 0] ++ List.replicate 29 85 ++ payloadAb) 0 =
        cstrAt ([97, 98, 0] ++ List.replicate 29 17 ++ payloadAb) 0 ∧
      ∃ n, n ≤ 31 ∧
        IsCStr (bufferOf (layout (List.replicate 32 85) payloadAb [])
          ([97, 98, 0] ++ List.replicate 29 85 ++ payloadAb)) n ∧
        IsCStr (bufferOf (layout (List.replicate 32 17) payloadAb [])
          ([97, 98, 0] ++ List.replicate 29 17 ++ payloadAb)) n ∧
        (bufferOf (layout (List.replicate 32 85) payloadAb [])
            ([97, 98, 0] ++ List.replicate 29 85 ++ payloadAb)).take (n + 1) =
          (bufferOf (layout (List.replicate 32 17) payloadAb [])
            ([97, 98, 0] ++ List.replicate 29 17 ++ payloadAb)).take (n + 1)) :=
  ⟨by decide, by decide,
    toString_string_independent_of_prior (layout (List.replicate 32 85) payloadAb [])
      (layout (List.replicate 32 17) payloadAb []) 32 32 (by decide) (by decide) (by decide)
      ([97, 98, 0] ++ List.replicate 29 85 ++ payloadAb) 0 (List.range' 32 3) (List.range' 0 3)
      ([97, 98, 0] ++ List.replicate 29 17 ++ payloadAb) 0 (List.range' 32 3) (List.range' 0 3)
      (by decide) (by decide)⟩

/-- C10: the only memory a returning call of `toString` changes is the
Display Buffer.  Every byte of the message's payload has the value it had
before the call, the memory keeps its size, every byte at an address outside
the 32 bytes of the Display Buffer is unchanged, and every store of the call
went to an address inside the Display Buffer. -/
theorem toString_changes_only_buffer (m : Machine) (msg : Nat) (hwf : WF m msg)
    (mem' : List Byte) (p : Nat) (rs ws : List Nat)
    (hret : toString m msg = Outcome.done mem' p rs ws) :
    payloadOf ⟨mem', m.buffer⟩ msg = payloadOf m msg ∧
      (∀ i, i < 32 → mem'[msg + i]? = m.mem[msg + i]?) ∧
      mem'.length = m.mem.length ∧
      (∀ a, a < m.buffer ∨ m.buffer + 32 ≤ a → mem'[a]? = m.mem[a]?) ∧
      ∀ a, a ∈ ws → m.buffer ≤ a ∧ a < m.buffer + 32 := by
  obtain ⟨hl, hw, hfr⟩ := toString_frame m msg hwf mem' p rs ws hret
  have hlen := rendered_length_le (payloadOf m msg)
  have hdis := hwf.2.2
  simp only [payloadCapacity, bufferSize] at hdis
  refine ⟨toString_payload_unchanged m msg hwf mem' p rs ws hret,
    fun i hi => hfr _ (by omega), hl, fun a ha => hfr a (by omega), fun a ha => ?_⟩
  have := hw a ha
  omega

/-- Witness for C10: the overflow payload, with the Display Buffer behind it
in memory. -/
theorem toString_changes_only_buffer_witness :
    WF (Machine.mk (payloadFull ++ (List.replicate 31 85 ++ [0]) ++ [9]) 32) 0 ∧
    toString (Machine.mk (payloadFull ++ (List.replicate 31 85 ++ [0]) ++ [9]) 32) 0 =
      Outcome.done (payloadFull ++ (List.replicate 31 65 ++ [0]) ++ [9]) 32
        (List.range' 0 64) (List.range' 32 32) ∧
    (payloadOf (Machine.mk (payloadFull ++ (List.replicate 31 65 ++ [0]) ++ [9]) 32) 0 =
        payloadOf (Machine.mk (payloadFull ++ (List.replicate 31 85 ++ [0]) ++ [9]) 32) 0 ∧
      (∀ i, i < 32 → (payloadFull ++ (List.replicate 31 65 ++ [0]) ++ [9])[0 + i]? =
        (payloadFull ++ (List.replicate 31 85 ++ [0]) ++ [9])[0 + i]?) ∧
      (payloadFull ++ (List.replicate 31 65 ++ [0]) ++ [9]).length =
        (payloadFull ++ (List.replicate 31 85 ++ [0]) ++ [9]).length ∧
      (∀ a, a < 32 ∨ 32 + 32 ≤ a → (payloadFull ++ (List.replicate 31 65 ++ [0]) ++ [9])[a]? =
        (payloadFull ++ (List.replicate 31 85 ++ [0]) ++ [9])[a]?) ∧
      ∀ a, a ∈ List.range' 32 32 → 32 ≤ a ∧ a < 32 + 32) :=
  ⟨by decide, by decide,
    toString_changes_only_buffer (Machine.mk (payloadFull ++ (List.replicate 31 85 ++ [0]) ++ [9]) 32) 0
      (by decide) (payloadFull ++ (List.replicate 31 65 ++ [0]) ++ [9]) 32
      (List.range' 0 64) (List.range' 32 32) (by decide)⟩

/-- C11: a returning call of `toString` stores the rendered string and its
terminator and nothing else.  When the string read after the call has length
`n` (`n ≤ 31`), every store went to a Display Buffer index `≤ n`, and every
Display Buffer byte at an index `i` with `n < i < 32` has the value it had
before the call: the bytes of an earlier, longer string stay in the buffer
behind the new terminator. -/
theorem toString_keeps_bytes_past_terminator (m : Machine) (msg : Nat) (hwf : WF m msg)
    (mem' : List Byte) (p : Nat) (rs ws : List Nat)
    (hret : toString m msg = Outcome.done mem' p rs ws) :
    ∃ s, cstrAt mem' p = some s ∧ s.length ≤ 31 ∧
      (∀ a, a ∈ ws → m.buffer ≤ a ∧ a ≤ m.buffer + s.length) ∧
      ∀ i, s.length < i → i < 32 → (bufferOf m mem')[i]? = (bufferOf m m.mem)[i]? := by
  obtain ⟨_, hp, _, _, _⟩ := toString_inv m msg hwf mem' p rs ws hret
  obtain ⟨_, hw, hfr⟩ := toString_frame m msg hwf mem' p rs ws hret
  have hstr := (toString_string m msg hwf mem' p rs ws hret).1
  refine ⟨rendered (payloadOf m msg), by rw [hp]; exact hstr, rendered_length_le _, hw,
    fun i hn hi => ?_⟩
  simp only [bufferOf, bytesAt, bufferSize, List.getElem?_take, List.getElem?_drop, hi, if_true]
  exact hfr _ (by omega)

/-- Witness for C11: the payload a, b, 0, c, d rendered into a Display Buffer
that still holds the 31-byte string of an earlier call; behind the new
terminator at index 2 the buffer keeps 28 bytes of the old string and its old
terminator. -/
theorem toString_keeps_bytes_past_terminator_witness :
    WF (layout (List.replicate 31 65 ++ [0]) payloadAb []) 32 ∧
    toString (layout (List.replicate 31 65 ++ [0]) payloadAb []) 32 =
      Outcome.done ([97, 98, 0] ++ List.replicate 28 65 ++ [0] ++ payloadAb) 0
        (List.range' 32 3) (List.range' 0 3) ∧
    bufferOf (layout (List.replicate 31 65 ++ [0]) payloadAb [])
        ([97, 98, 0] ++ List.replicate 28 65 ++ [0] ++ payloadAb) =
      [97, 98, 0] ++ List.replicate 28 65 ++ [0] ∧
    ∃ s, cstrAt ([97, 98, 0] ++ List.replicate 28 65 ++ [0] ++ payloadAb) 0 = some s ∧
      s.length ≤ 31 ∧
      (∀ a, a ∈ List.range' 0 3 → 0 ≤ a ∧ a ≤ 0 + s.length) ∧
      ∀ i, s.length < i → i < 32 →
        (bufferOf (layout (List.replicate 31 65 ++ [0]) payloadAb [])
            ([97, 98, 0] ++ List.replicate 28 65 ++ [0] ++ payloadAb))[i]? =
          (bufferOf (layout (List.replicate 31 65 ++ [0]) payloadAb [])
            (layout (List.replicate 31 65 ++ [0]) payloadAb []).mem)[i]? :=
  ⟨by decide, by decide, by decide,
    toString_keeps_bytes_past_terminator (layout (List.replicate 31 65 ++ [0]) payloadAb []) 32
      (by decide) ([97, 98, 0] ++ List.replicate 28 65 ++ [0] ++ payloadAb) 0
      (List.range' 32 3) (List.range' 0 3) (by decide)⟩

/-- C12, the code at the failing input: two messages in one memory whose
payloads agree on bytes `0..30`, the exact-fit payload (byte 31 zero) and the
payload of 32 non-zero bytes that ends where the memory ends.  `toString` of
the first returns and renders the 31 common bytes; `toString` of the second
faults in the scan for the terminator and renders nothing. -/
theorem toString_first_31_agree_one_faults :
    WF (layout (List.replicate 32 85) payloadExactFit payloadFull) 32 ∧
    WF (layout (List.replicate 32 85) payloadExactFit payloadFull) 64 ∧
    (payloadOf (layout (List.replicate 32 85) payloadExactFit payloadFull) 32).take 31 =
      (payloadOf (layout (List.replicate 32 85) payloadExactFit payloadFull) 64).take 31 ∧
    toString (layout (List.replicate 32 85) payloadExactFit payloadFull) 32 =
      Outcome.done (List.replicate 31 65 ++ [0] ++ payloadExactFit ++ payloadFull) 0
        (List.range' 32 32) (List.range' 0 32) ∧
    cstrAt (List.replicate 31 65 ++ [0] ++ payloadExactFit ++ payloadFull) 0 =
      some (List.replicate 31 65) ∧
    toString (layout (List.replicate 32 85) payloadExactFit payloadFull) 64 =
      Outcome.fault (List.range' 64 33) ∧
    ∀ mem' p rs ws,
      toString (layout (List.replicate 32 85) payloadExactFit payloadFull) 64 ≠
        Outcome.done mem' p rs ws := by
  refine ⟨by decide, by decide, by decide, by decide, by decide, by decide,
    fun mem' p rs ws h => ?_⟩
  have hf : toString (layout (List.replicate 32 85) payloadExactFit payloadFull) 64 =
      Outcome.fault (List.range' 64 33) := by decide
  rw [hf] at h
  cases h

end SMessage
